import Mathlib

/-!
Verification of the `programmabletuple` library (file
`programmabletuple/__init__.py`) against its specification.

The development shallowly embeds the core protocol of the library:

* field-table resolution (`_determine_fields`),
* the proxy / builder construction path (`_form_new_method`,
  `_add_auto_defining`, `_get_field_values`),
* the frozen-record value semantics (`__setattr__`, `__eq__`, `__hash__`),
* the update / replace / make engine (`_update`, `_replace`, `_make`,
  `_make_programmable_tuple`), and
* the dictionary codec (`_asdict`, `_load_from_dict`).

Python values that can appear in record fields are embedded by the type
`Value`: integers, strings, frozen programmable tuples (class name plus
content tuple), and plain dictionaries (modelled as association lists, in
insertion order, the way Python preserves key order).  A frozen record is a
`PRec`: its concrete class name and the ordered content tuple.  Per-class
information resolved by the metaclass (the ordered field table, the number
of defining fields, whether the class derives from `tuple`, and whether
`auto_defining` is enabled) lives in a `ClassInfo`, and an `Env` associates
class names to their `ClassInfo` the way the interpreter's class objects do.
-/

namespace ProgTuple

/-- Field names are Python identifiers, embedded as strings. -/
abbrev FieldName := String

/-- A Python value that can be stored in a programmable-tuple field:
a scalar (integer or string), a frozen programmable tuple
(`vrec class-name content-tuple`), or a plain dictionary. -/
inductive Value where
  | vint : Int → Value
  | vstr : String → Value
  | vrec : String → List Value → Value
  | vdict : List (FieldName × Value) → Value

mutual

/-- Decidable equality for `Value` (the deriving handler does not support
this nested inductive, so the decision procedure is spelled out). -/
def valDecEq : (a b : Value) → Decidable (a = b)
  | .vint a, .vint b =>
      match decEq a b with
      | isTrue h => isTrue (by rw [h])
      | isFalse h => isFalse (by intro hc; cases hc; exact h rfl)
  | .vstr a, .vstr b =>
      match decEq a b with
      | isTrue h => isTrue (by rw [h])
      | isFalse h => isFalse (by intro hc; cases hc; exact h rfl)
  | .vrec c1 l1, .vrec c2 l2 =>
      match decEq c1 c2, valDecEqL l1 l2 with
      | isTrue h1, isTrue h2 => isTrue (by rw [h1, h2])
      | isFalse h1, _ => isFalse (by intro hc; cases hc; exact h1 rfl)
      | _, isFalse h2 => isFalse (by intro hc; cases hc; exact h2 rfl)
  | .vdict d1, .vdict d2 =>
      match valDecEqD d1 d2 with
      | isTrue h => isTrue (by rw [h])
      | isFalse h => isFalse (by intro hc; cases hc; exact h rfl)
  | .vint _, .vstr _ => isFalse (by intro h; cases h)
  | .vint _, .vrec _ _ => isFalse (by intro h; cases h)
  | .vint _, .vdict _ => isFalse (by intro h; cases h)
  | .vstr _, .vint _ => isFalse (by intro h; cases h)
  | .vstr _, .vrec _ _ => isFalse (by intro h; cases h)
  | .vstr _, .vdict _ => isFalse (by intro h; cases h)
  | .vrec _ _, .vint _ => isFalse (by intro h; cases h)
  | .vrec _ _, .vstr _ => isFalse (by intro h; cases h)
  | .vrec _ _, .vdict _ => isFalse (by intro h; cases h)
  | .vdict _, .vint _ => isFalse (by intro h; cases h)
  | .vdict _, .vstr _ => isFalse (by intro h; cases h)
  | .vdict _, .vrec _ _ => isFalse (by intro h; cases h)

/-- Decidable equality for lists of `Value`s. -/
def valDecEqL : (a b : List Value) → Decidable (a = b)
  | [], [] => isTrue rfl
  | x :: xs, y :: ys =>
      match valDecEq x y, valDecEqL xs ys with
      | isTrue h1, isTrue h2 => isTrue (by rw [h1, h2])
      | isFalse h1, _ => isFalse (by intro hc; cases hc; exact h1 rfl)
      | _, isFalse h2 => isFalse (by intro hc; cases hc; exact h2 rfl)
  | [], _ :: _ => isFalse (by intro h; cases h)
  | _ :: _, [] => isFalse (by intro h; cases h)

/-- Decidable equality for association lists of `Value`s. -/
def valDecEqD : (a b : List (FieldName × Value)) → Decidable (a = b)
  | [], [] => isTrue rfl
  | (k1, v1) :: xs, (k2, v2) :: ys =>
      match decEq k1 k2, valDecEq v1 v2, valDecEqD xs ys with
      | isTrue h1, isTrue h2, isTrue h3 => isTrue (by rw [h1, h2, h3])
      | isFalse h1, _, _ => isFalse (by intro hc; cases hc; exact h1 rfl)
      | _, isFalse h2, _ => isFalse (by intro hc; cases hc; exact h2 rfl)
      | _, _, isFalse h3 => isFalse (by intro hc; cases hc; exact h3 rfl)
  | [], _ :: _ => isFalse (by intro h; cases h)
  | _ :: _, [] => isFalse (by intro h; cases h)

end

instance : DecidableEq Value := valDecEq

/-- The information the metaclass `ProgrammableTupleMeta.__new__` resolves
once per class and stores on the class object: the ordered field table
(`__fields__`, field names in index order), the number of defining fields
(`__defining_count__`), whether the class is a subclass of `tuple`
(`ProgrammableTuple`) or not (`ProgrammableExpr`), and whether the
`auto_defining` class option was requested. -/
structure ClassInfo where
  fields : List FieldName
  definingCount : Nat
  isTuple : Bool
  autoDefining : Bool
  deriving DecidableEq

/-- The class environment: class name to resolved class information, the
role played by the interpreter's class objects. -/
abbrev Env := List (String × ClassInfo)

/-- A frozen programmable tuple: its concrete class and the content tuple
holding one value per field-table entry (`__content__`). -/
structure PRec where
  cls : String
  content : List Value
  deriving DecidableEq

/-- View of a frozen record as a field `Value` (for nesting records inside
other records' fields). -/
def PRec.toValue (r : PRec) : Value := .vrec r.cls r.content

/-- The discrete error conditions the library signals (all surface as
`ValueError` / `AttributeError` / `KeyError` / `TypeError` in the source;
the embedding keeps them apart by their meaning). -/
inductive PTError where
  | immutableWrite
  | readOnlyContent
  | unsetAttr (name : FieldName)
  | invalidAttr (name : FieldName)
  | unexpectedFields (names : List FieldName)
  | unresolvedTag (tag : String)
  | missingDefining (name : FieldName)
  | notAFunction
  deriving DecidableEq

/-- The field table of a class, in index order (`cls.__fields__`). -/
def fieldsOf (env : Env) (cls : String) : List FieldName :=
  match env.lookup cls with
  | some info => info.fields
  | none => []

/-- The number of defining fields of a class (`cls.__defining_count__`). -/
def definingCountOf (env : Env) (cls : String) : Nat :=
  match env.lookup cls with
  | some info => info.definingCount
  | none => 0

/-- Whether the class is a subclass of `tuple` (a `ProgrammableTuple`
rather than a `ProgrammableExpr`). -/
def isTupleOf (env : Env) (cls : String) : Bool :=
  match env.lookup cls with
  | some info => info.isTuple
  | none => true

/-- `_gen_defining_field_names`: the defining-field prefix of the field
table. -/
def definingNamesOf (env : Env) (cls : String) : List FieldName :=
  (fieldsOf env cls).take (definingCountOf env cls)

/-- `_defining_values`: the defining prefix of the content tuple
(`self.__content__[0:self.__defining_count__]`). -/
def definingValues (env : Env) (r : PRec) : List Value :=
  r.content.take (definingCountOf env r.cls)

/-- `_UtilMethodsMixin.__getattr__`: reading a field resolves by table
lookup into the frozen content; an unknown name raises (`none` here embeds
the `KeyError('Invalid attribute ...')`). -/
def pgetattr (env : Env) (r : PRec) (attr : FieldName) : Option Value :=
  match (fieldsOf env r.cls).indexOf? attr with
  | some idx => r.content[idx]?
  | none => none

/-- `_UtilMethodsMixin.__setattr__` together with the write path behind
`super().__setattr__`: any attribute other than `__content__` raises the
immutable-write `AttributeError`; `__content__` is forwarded to the normal
object write, which succeeds on the `__content__` slot of a non-tuple
class (`ProgrammableExpr`) and fails on the read-only `__content__`
property of a tuple subclass (`ProgrammableTuple`).  The assigned value is
the whole content tuple. -/
def psetattr (env : Env) (r : PRec) (attr : FieldName) (v : List Value) :
    Except PTError PRec :=
  if attr = "__content__" then
    if isTupleOf env r.cls then
      .error .readOnlyContent
    else
      .ok ⟨r.cls, v⟩
  else
    .error .immutableWrite

/-- `_UtilMethodsMixin.__eq__`: two records are equal when they have the
same concrete class and element-wise equal defining-field values. -/
def peq (env : Env) (a b : PRec) : Bool :=
  a.cls == b.cls && definingValues env a == definingValues env b

/-- The data hashed by `_UtilMethodsMixin.__hash__`: the tuple
`(self.__class__, ) + self._defining_values`. -/
def hashInput (env : Env) (r : PRec) : String × List Value :=
  (r.cls, definingValues env r)

/-- `_UtilMethodsMixin.__hash__`, with Python's opaque `hash` function on
tuples abstracted as the parameter `h`. -/
def phash (env : Env) (h : String × List Value → Int) (r : PRec) : Int :=
  h (hashInput env r)

/-- `_get_field_values`: query every field of the table in order; the
first absent value raises `AttributeError('Attribute ... is not set')`. -/
def get_field_values (fields : List FieldName) (query : FieldName → Option Value) :
    Except PTError (List Value) :=
  match fields with
  | [] => .ok []
  | fn :: rest =>
      match query fn with
      | none => .error (.unsetAttr fn)
      | some v => do
          let vs ← get_field_values rest query
          .ok (v :: vs)

/-- `_make_programmable_tuple`: direct storage assignment of a complete
content tuple, bypassing the class's normal write path. -/
def make_programmable_tuple (cls : String) (data_values : List Value) : PRec :=
  ⟨cls, data_values⟩

/-- `_UtilMethodsMixin._make`: build a record directly from a complete
field-to-value mapping, bypassing initialization.  Every field must be
present (`KeyError`, reported as the unset-attribute error), and leftover
keys raise `ValueError('Invalid field(s) ...')`. -/
def pmake (env : Env) (cls : String) (kwargs : List (FieldName × Value)) :
    Except PTError PRec := do
  let values ← get_field_values (fieldsOf env cls) (fun fn => kwargs.lookup fn)
  let leftover := kwargs.filter (fun kv => !(fieldsOf env cls).contains kv.1)
  if leftover.isEmpty then
    .ok (make_programmable_tuple cls values)
  else
    .error (.unexpectedFields (leftover.map (fun kv => kv.1)))

/-- `_UtilMethodsMixin._replace`: build the complete field-to-value map
from the current record (overridden fields from the keyword arguments,
every other field read back from the record), raise on unexpected keys,
and feed the map to the `_make` bypass path; no initializer logic is
involved anywhere on this path. -/
def preplace (env : Env) (r : PRec) (kwargs : List (FieldName × Value)) :
    Except PTError PRec :=
  let fns := fieldsOf env r.cls
  let values_dict := fns.map (fun fn =>
    (fn, match kwargs.lookup fn with
         | some v => v
         | none => (pgetattr env r fn).getD (Value.vint 0)))
  let leftover := kwargs.filter (fun kv => !fns.contains kv.1)
  if leftover.isEmpty then
    pmake env r.cls values_dict
  else
    .error (.unexpectedFields (leftover.map (fun kv => kv.1)))

/-- Whether the `auto_defining` class option was requested for the class. -/
def autoDefiningOf (env : Env) (cls : String) : Bool :=
  match env.lookup cls with
  | some info => info.autoDefining
  | none => false

/-- Well-formedness of a frozen record relative to the environment: the
field table is duplicate-free, the defining count does not exceed the
table length, and the content tuple has exactly one value per field.
Every record produced through `_make_programmable_tuple` by the library
satisfies this. -/
def RecordWF (env : Env) (r : PRec) : Prop :=
  (fieldsOf env r.cls).Nodup ∧
  definingCountOf env r.cls ≤ (fieldsOf env r.cls).length ∧
  r.content.length = (fieldsOf env r.cls).length

instance (env : Env) (r : PRec) : Decidable (RecordWF env r) := by
  unfold RecordWF; infer_instance

/-!
### Field determination (`_determine_fields`)

The `__init__` entry of the class namespace is either absent (`KeyError`
branch), present but not a function (no `__code__`, the `AttributeError`
branch), or a function with its declared parameter names (`self` first).
A base class either is a programmable-tuple class carrying its resolved
field table, or is any other class (which `_gen_programmable_tuple_bases`
silently skips).
-/

/-- The `__init__` entry of a class namespace, as `_determine_fields`
inspects it. -/
inductive InitDecl where
  | noInit
  | notFunction
  | func (params : List FieldName)
  deriving DecidableEq

/-- A base class of a new programmable-tuple class declaration. -/
inductive BaseClass where
  | pt (fields : List FieldName)
  | other
  deriving DecidableEq

/-- `_gen_programmable_tuple_bases`: keep only the bases that are
themselves programmable-tuple classes, yielding their field tables. -/
def pt_bases (bases : List BaseClass) : List (List FieldName) :=
  bases.filterMap (fun b => match b with | .pt fs => some fs | .other => none)

/-- The candidate data-field pool of `_determine_fields`: the union of all
programmable-tuple bases' field tables with the class's own
`__data_fields__` declaration (a Python `set`; embedded as the list of
contributions, deduplicated when sorted). -/
def union_fields (bases : List BaseClass)
    (data_fields_decl : Option (List FieldName)) : List FieldName :=
  (pt_bases bases).flatten ++ data_fields_decl.getD []

/-- Python's `sorted` on a set of names: the lexicographically sorted list
of the distinct elements. -/
def sorted_set (l : List FieldName) : List FieldName :=
  l.dedup.insertionSort (fun a b => a ≤ b)

/-- `_determine_fields`: defining fields are the initializer's parameters
after `self`, in declared order; data fields are the candidate pool minus
the defining names, sorted; the table is the concatenation.  When the
namespace has no `__init__` there are no defining fields (and no error);
when `__init__` is not a function, `ValueError('Initializer needs to be a
function.')` is raised. -/
def determine_fields (bases : List BaseClass)
    (data_fields_decl : Option (List FieldName)) (init : InitDecl) :
    Except PTError (List FieldName × Nat) :=
  let fields := union_fields bases data_fields_decl
  match init with
  | .notFunction => .error .notAFunction
  | .noInit => .ok (sorted_set fields, 0)
  | .func params =>
      let defining_fields := params.drop 1
      let data_fields :=
        sorted_set (fields.filter (fun x => !defining_fields.contains x))
      .ok (defining_fields ++ data_fields, defining_fields.length)

/-!
### The construction path (`_form_new_method`, `_add_auto_defining`)

A proxy (builder) object's writable surface is its instance attribute
mapping; the embedding uses an association list where the most recent
write is at the head, so `List.lookup` returns the latest value, the way
instance-attribute assignment overwrites.  The user-supplied initializer
body is an opaque state transformer receiving the constructor arguments.
-/

/-- The mutable scratch storage of one proxy (builder) instance. -/
abbrev ProxyState := List (FieldName × Value)

/-- `setattr` on the proxy object: record the write (latest wins). -/
def proxy_set (s : ProxyState) (fn : FieldName) (v : Value) : ProxyState :=
  (fn, v) :: s

/-- `getattr` on the proxy object restricted to instance attributes: the
latest write, if any (class-level properties and methods are part of the
opaque user logic, not of the scratch storage). -/
def proxy_get (s : ProxyState) (fn : FieldName) : Option Value :=
  s.lookup fn

/-- The user-written initializer body: an opaque transformer of the proxy
state, also given the positional and keyword constructor arguments. -/
abbrev UserInit := List Value → List (FieldName × Value) → ProxyState → ProxyState

/-- `_add_auto_defining`: before the user initializer body runs, every
positional argument is assigned under the corresponding declared
parameter name, and then every keyword argument under its own name
(`for field, value in chain(zip(argnames[1:], args), kwargs.items()):
setattr(self, field, value)`). -/
def auto_assign (argnames : List FieldName) (args : List Value)
    (kwargs : List (FieldName × Value)) (s : ProxyState) : ProxyState :=
  (argnames.zip args ++ kwargs).foldl (fun st fv => proxy_set st fv.1 fv.2) s

/-- The proxy state produced by `proxy_class(*args, **kwargs)`: the
auto-assign writes (when the class option is enabled) followed by the
user initializer body. -/
def proxy_init (env : Env) (cls : String) (userInit : UserInit)
    (args : List Value) (kwargs : List (FieldName × Value)) : ProxyState :=
  let s0 : ProxyState := []
  let s1 :=
    if autoDefiningOf env cls then
      auto_assign (definingNamesOf env cls) args kwargs s0
    else s0
  userInit args kwargs s1

/-- `_form_new_method`'s `new_meth`, the normal construction path: run the
proxy initialization, then harvest every field of the table from the
proxy (`_get_field_values`, raising on any unset field), and freeze the
values through `_make_programmable_tuple`. -/
def new_meth (env : Env) (cls : String) (userInit : UserInit)
    (args : List Value) (kwargs : List (FieldName × Value)) :
    Except PTError PRec := do
  let proxy := proxy_init env cls userInit args kwargs
  let values ← get_field_values (fieldsOf env cls) (fun fn => proxy_get proxy fn)
  .ok (make_programmable_tuple cls values)

/-- `_UtilMethodsMixin._update`: call the normal constructor of the same
concrete class positionally with the current defining values, each
replaced by its override when one was supplied
(`type(self)(*(map(kwargs.pop, self._gen_defining_field_names(),
self.__content__)))`), then raise `ValueError('Got unexpected field
names ...')` when override keys remain unconsumed.  The construction
happens before the leftover check, as in the source. -/
def pupdate (env : Env) (userInit : UserInit) (r : PRec)
    (kwargs : List (FieldName × Value)) : Except PTError PRec :=
  let names := definingNamesOf env r.cls
  let vals := (names.zip r.content).map (fun p => (kwargs.lookup p.1).getD p.2)
  do
    let result ← new_meth env r.cls userInit vals []
    let leftover := kwargs.filter (fun kv => !names.contains kv.1)
    if leftover.isEmpty then
      .ok result
    else
      .error (.unexpectedFields (leftover.map (fun kv => kv.1)))

/-!
### Dictionary encoding (`_asdict`)

`_asdict` iterates the included field names (the defining prefix by
default, the whole table with `full=True`) in field-table order, reading
each value with `getattr` and recursively converting values that are
themselves programmable tuples into dictionaries; all other values pass
through unchanged.  Since the included names are exactly the first `cnt`
entries of the (duplicate-free) field table and `getattr` resolves
`fields[i]` to `content[i]`, the iteration is embedded as walking the
first `cnt` field/value pairs in parallel.  The default `class_tags=False`
case is embedded (no reserved tag key is added). -/

mutual

/-- Recursive conversion of one field value inside `_asdict`: a
programmable tuple becomes its dictionary form, anything else is kept. -/
def encode_val (env : Env) (full : Bool) : Value → Value
  | .vrec c content =>
      let cnt := if full then (fieldsOf env c).length else definingCountOf env c
      .vdict (encode_pairs env full cnt (fieldsOf env c) content)
  | .vint n => .vint n
  | .vstr s => .vstr s
  | .vdict d => .vdict d

/-- The field/value pairs of `_asdict`: the first `cnt` fields of the
table with their recursively converted values. -/
def encode_pairs (env : Env) (full : Bool) :
    Nat → List FieldName → List Value → List (FieldName × Value)
  | 0, _, _ => []
  | _ + 1, [], _ => []
  | _ + 1, _ :: _, [] => []
  | n + 1, fn :: fns, v :: vs =>
      (fn, encode_val env full v) :: encode_pairs env full n fns vs

end

/-- `_asdict` on a frozen record (default `class_tags=False`). -/
def asdict (env : Env) (full : Bool) (r : PRec) : List (FieldName × Value) :=
  let cnt := if full then (fieldsOf env r.cls).length else definingCountOf env r.cls
  encode_pairs env full cnt (fieldsOf env r.cls) r.content

/-!
### Dictionary decoding (`_load_from_dict`)
-/

/-- The class-resolution preamble of `_load_from_dict`: look for the
reserved `__class__` key.  Absent: at top level the receiver class is
assumed (`.ok (some cls)`), below top level the sub-mapping is treated as
opaque data (`.ok none`, the caller returns a plain dictionary).  Present:
the tag is resolved through the tag table, and an unresolvable tag (or a
missing / unusable table, a `TypeError` in Python) raises. -/
def resolve_obj_class (ctags : Option (List (String × String))) (cls : String)
    (d : List (FieldName × Value)) (top : Bool) :
    Except PTError (Option String) :=
  match d.lookup "__class__" with
  | none => if top then .ok (some cls) else .ok none
  | some tagv =>
      match ctags with
      | none => .error (.unresolvedTag "")
      | some m =>
          match tagv with
          | .vstr tag =>
              match m.lookup tag with
              | some objCls => .ok (some objCls)
              | none => .error (.unresolvedTag tag)
          | _ => .error (.unresolvedTag "")

/-- `sizeOf` of a successful association-list lookup is below the list's. -/
theorem sizeOf_lookup_lt {d : List (FieldName × Value)} {fn : FieldName}
    {v : Value} (h : d.lookup fn = some v) : sizeOf v < sizeOf d := by
  induction d with
  | nil => simp [List.lookup] at h
  | cons kv rest ih =>
      rw [List.lookup] at h
      split at h
      · injection h with h
        cases kv with
        | mk k w =>
            simp only at h
            subst h
            simp
            omega
      · have := ih h
        cases kv with
        | mk k w =>
            simp
            omega

mutual

/-- `_load_from_dict`: resolve the object class (or fall back to a plain
dictionary below top level), then either (`full=True`) read every
present non-tag key, recursing into dictionary-shaped values, and feed
the result to the `_make` bypass path, or (`full=False`) read only the
resolved class's defining fields (raising when one is absent), recursing
into dictionary-shaped values, and invoke the normal constructor of the
resolved class with them (the parameter `construct` stands for
`obj_class(**defining)`, the per-class normal construction). -/
def load_from_dict (env : Env) (ctags : Option (List (String × String)))
    (construct : String → List (FieldName × Value) → Except PTError PRec)
    (cls : String) (d : List (FieldName × Value)) (full top : Bool) :
    Except PTError Value := do
  match ← resolve_obj_class ctags cls d top with
  | none => .ok (.vdict d)
  | some objCls =>
      if full then do
        let content ← load_content env ctags construct cls d
        let r ← pmake env objCls content
        .ok r.toValue
      else do
        let defining ← load_defining env ctags construct cls
            (definingNamesOf env objCls) d
        let r ← construct objCls defining
        .ok r.toValue
termination_by (sizeOf d, 1, 0)

/-- The `full=True` loop of `_load_from_dict`: walk the dictionary items
in order, skip the reserved `__class__` key, and recurse (with
`full=True`, below top level) into values that are dictionaries. -/
def load_content (env : Env) (ctags : Option (List (String × String)))
    (construct : String → List (FieldName × Value) → Except PTError PRec)
    (cls : String) :
    (items : List (FieldName × Value)) →
    Except PTError (List (FieldName × Value))
  | [] => .ok []
  | (k, v) :: rest =>
      if k = "__class__" then
        load_content env ctags construct cls rest
      else do
        let v' ← match v with
                 | .vdict sub => load_from_dict env ctags construct cls sub true false
                 | .vint n => .ok (.vint n)
                 | .vstr s => .ok (.vstr s)
                 | .vrec c l => .ok (.vrec c l)
        let rest' ← load_content env ctags construct cls rest
        .ok ((k, v') :: rest')
termination_by items => (sizeOf items, 0, 0)

/-- The `full=False` loop of `_load_from_dict`: for each defining field of
the resolved class in order, read its value from the dictionary (raising
`ValueError('The definition property ... is not given')` when absent) and
recurse (with `full=False`, below top level) when the value is a
dictionary. -/
def load_defining (env : Env) (ctags : Option (List (String × String)))
    (construct : String → List (FieldName × Value) → Except PTError PRec)
    (cls : String) :
    (names : List FieldName) → (d : List (FieldName × Value)) →
    Except PTError (List (FieldName × Value))
  | [], _ => .ok []
  | fn :: rest, d =>
      match hl : d.lookup fn with
      | none => .error (.missingDefining fn)
      | some (.vdict sub) => do
          have hsz : sizeOf sub < sizeOf d := by
            have h1 := sizeOf_lookup_lt hl
            simp at h1
            omega
          let val' ← load_from_dict env ctags construct cls sub false false
          let rest' ← load_defining env ctags construct cls rest d
          .ok ((fn, val') :: rest')
      | some (.vint n) => do
          let rest' ← load_defining env ctags construct cls rest d
          .ok ((fn, Value.vint n) :: rest')
      | some (.vstr s) => do
          let rest' ← load_defining env ctags construct cls rest d
          .ok ((fn, Value.vstr s) :: rest')
      | some (.vrec c l) => do
          let rest' ← load_defining env ctags construct cls rest d
          .ok ((fn, Value.vrec c l) :: rest')
termination_by names d => (sizeOf d, 0, names.length)

end

/-!
## Helper lemmas
-/

/-- Unfolding of `__eq__` into its two conjuncts. -/
theorem peq_iff (env : Env) (a b : PRec) :
    peq env a b = true ↔
      a.cls = b.cls ∧ definingValues env a = definingValues env b := by
  unfold peq
  rw [Bool.and_eq_true, beq_iff_eq, beq_iff_eq]

/-- A successful `indexOf?` hit: position, bound and table entry. -/
theorem indexOf?_spec {fns : List FieldName} {fn : FieldName} (hfn : fn ∈ fns) :
    ∃ i, fns.indexOf? fn = some i ∧ i < fns.length ∧ fns[i]? = some fn := by
  induction fns with
  | nil => cases hfn
  | cons x rest ih =>
      by_cases hx : (x == fn) = true
      · refine ⟨0, ?_, by simp, ?_⟩
        · rw [List.indexOf?_cons, if_pos hx]
        · simp [eq_of_beq hx]
      · have hfn' : fn ∈ rest := by
          cases hfn with
          | head => exact absurd (by simp) hx
          | tail _ h => exact h
        obtain ⟨i, h1, h2, h3⟩ := ih hfn'
        refine ⟨i + 1, ?_, by simp; omega, by simpa using h3⟩
        rw [List.indexOf?_cons, if_neg hx, h1]
        rfl

/-- An association list built by pairing each key with a function of the
key looks up to exactly that function value. -/
theorem lookup_map_pair {fns : List FieldName} {w : FieldName → Value}
    {fn : FieldName} (hfn : fn ∈ fns) :
    (fns.map (fun x => (x, w x))).lookup fn = some (w fn) := by
  induction fns with
  | nil => cases hfn
  | cons x rest ih =>
      by_cases hx : (fn == x) = true
      · simp [List.lookup, hx, eq_of_beq hx]
      · have hfn' : fn ∈ rest := by
          cases hfn with
          | head => exact absurd (by simp) hx
          | tail _ h => exact h
        simp [List.lookup, hx, ih hfn']

/-- Reading a field of a well-formed record whose content is the table
mapped through a value function yields that function's value. -/
theorem pgetattr_map {env : Env} {cls : String} {w : FieldName → Value}
    {fn : FieldName} (hfn : fn ∈ fieldsOf env cls) :
    pgetattr env ⟨cls, (fieldsOf env cls).map w⟩ fn = some (w fn) := by
  obtain ⟨i, h1, h2, h3⟩ := indexOf?_spec hfn
  unfold pgetattr
  simp only [h1]
  rw [List.getElem?_map, h3]
  rfl

/-- Reading any table field of a well-formed record succeeds. -/
theorem pgetattr_wf_isSome {env : Env} {r : PRec} (hwf : RecordWF env r)
    {fn : FieldName} (hfn : fn ∈ fieldsOf env r.cls) :
    (pgetattr env r fn).isSome := by
  obtain ⟨i, h1, h2, h3⟩ := indexOf?_spec hfn
  unfold pgetattr
  simp only [h1]
  have hlen : r.content.length = (fieldsOf env r.cls).length := hwf.2.2
  have : i < r.content.length := by omega
  simp [List.getElem?_eq_getElem this]

/-- `_get_field_values` succeeds exactly on a query defined on the whole
table, and then returns the queried values in table order. -/
theorem get_field_values_map {fields : List FieldName}
    {q : FieldName → Option Value} {f : FieldName → Value}
    (h : ∀ fn ∈ fields, q fn = some (f fn)) :
    get_field_values fields q = .ok (fields.map f) := by
  induction fields with
  | nil => rfl
  | cons fn rest ih =>
      unfold get_field_values
      rw [h fn (by simp)]
      rw [ih (fun x hx => h x (by simp [hx]))]
      rfl

/-- The values returned by a successful `_get_field_values` run are the
query results, field by field in table order. -/
theorem get_field_values_ok {fields : List FieldName}
    {q : FieldName → Option Value} {vs : List Value}
    (h : get_field_values fields q = .ok vs) :
    vs.length = fields.length ∧
      ∀ i (hi : i < fields.length), q fields[i] = vs[i]? := by
  induction fields generalizing vs with
  | nil =>
      unfold get_field_values at h
      injection h with h
      subst h
      exact ⟨rfl, fun i hi => absurd hi (by simp)⟩
  | cons fn rest ih =>
      unfold get_field_values at h
      cases hq : q fn with
      | none => rw [hq] at h; exact absurd h (by simp)
      | some v =>
          rw [hq] at h
          cases hrest : get_field_values rest q with
          | error e =>
              rw [hrest] at h
              exact absurd h (by simp [Bind.bind, Except.bind])
          | ok ws =>
              rw [hrest] at h
              simp only [Bind.bind, Except.bind, Except.ok.injEq] at h
              subst h
              obtain ⟨hlen, hvals⟩ := ih hrest
              refine ⟨by simp [hlen], ?_⟩
              intro i hi
              cases i with
              | zero => simpa using hq
              | succ j =>
                  have hj : j < rest.length := by simp at hi; omega
                  simpa using hvals j hj

/-- A filter is empty exactly when no element satisfies the predicate. -/
theorem filter_isEmpty_iff {p : FieldName × Value → Bool}
    {l : List (FieldName × Value)} :
    (l.filter p).isEmpty = true ↔ ∀ kv ∈ l, ¬ p kv = true := by
  rw [List.isEmpty_iff, List.filter_eq_nil_iff]

/-!
## The claims

### C3: post-freeze mutation
-/

/-- C3 as frozen is refuted: the source's `__setattr__` special-cases the
attribute name `__content__`, and on a record of a non-tuple-based class
(`ProgrammableExpr` family) that assignment is forwarded to the
`__content__` slot write, which succeeds.  Concretely, a class declaring
the (legal) field name `__content__` has that name in its field table, yet
assigning it does not raise — it replaces the whole storage, changing the
stored field value from `1` to `2` — so a post-freeze field mutation
succeeds. -/
theorem claim_C3_counterexample :
    "__content__" ∈ fieldsOf [("E", ⟨["__content__"], 1, false, false⟩)] "E" ∧
    psetattr [("E", ⟨["__content__"], 1, false, false⟩)]
        ⟨"E", [Value.vint 1]⟩ "__content__" [Value.vint 2]
      = .ok ⟨"E", [Value.vint 2]⟩ ∧
    pgetattr [("E", ⟨["__content__"], 1, false, false⟩)]
        ⟨"E", [Value.vint 1]⟩ "__content__" = some (Value.vint 1) ∧
    pgetattr [("E", ⟨["__content__"], 1, false, false⟩)]
        ⟨"E", [Value.vint 2]⟩ "__content__" = some (Value.vint 2) := by
  refine ⟨by decide, rfl, rfl, rfl⟩

/-- C3 amended: on every frozen record, attribute assignment of any name
other than the internal storage name `__content__` raises the
immutable-write error; on a record of a tuple-based class every
assignment, `__content__` included, fails.  Only the `__content__` slot
write of a non-tuple-based record succeeds (see C10). -/
theorem claim_C3_immutable (env : Env) (r : PRec) (attr : FieldName)
    (v : List Value) :
    (attr ≠ "__content__" → psetattr env r attr v = .error .immutableWrite) ∧
    (isTupleOf env r.cls = true → ∃ e, psetattr env r attr v = .error e) := by
  constructor
  · intro hne
    unfold psetattr
    rw [if_neg hne]
  · intro ht
    unfold psetattr
    by_cases hc : attr = "__content__"
    · rw [if_pos hc, if_pos ht]
      exact ⟨.readOnlyContent, rfl⟩
    · rw [if_neg hc]
      exact ⟨.immutableWrite, rfl⟩

/-- Witness for `claim_C3_immutable` at a concrete record and field. -/
theorem claim_C3_immutable_witness :
    ("x" : FieldName) ≠ "__content__" ∧
    psetattr [("P", ⟨["x"], 1, true, false⟩)] ⟨"P", [Value.vint 1]⟩ "x" []
      = .error .immutableWrite ∧
    isTupleOf [("P", ⟨["x"], 1, true, false⟩)] "P" = true ∧
    ∃ e, psetattr [("P", ⟨["x"], 1, true, false⟩)] ⟨"P", [Value.vint 1]⟩
        "__content__" [] = .error e := by
  refine ⟨by decide, ?_, by decide, ?_⟩
  · exact (claim_C3_immutable [("P", ⟨["x"], 1, true, false⟩)]
      ⟨"P", [Value.vint 1]⟩ "x" []).1 (by decide)
  · exact (claim_C3_immutable [("P", ⟨["x"], 1, true, false⟩)]
      ⟨"P", [Value.vint 1]⟩ "__content__" []).2 (by decide)

/-!
### C4: equality semantics
-/

/-- C4: `__eq__` returns `True` exactly when the two records have the same
concrete class and element-wise equal defining-field value tuples; the
data-field suffix of the content never enters the comparison, so records
of one class agreeing on the defining prefix compare equal whatever their
data fields hold. -/
theorem claim_C4_equality (env : Env) (a b : PRec) :
    peq env a b = true ↔
      a.cls = b.cls ∧ definingValues env a = definingValues env b :=
  peq_iff env a b

/-!
### C8: hash semantics
-/

/-- C8: `__hash__` hashes exactly the pair of the concrete class and the
defining-field value tuple; that hash input coincides between two records
exactly when `__eq__` holds, hence equal records hash equal under every
hash function, and hashing distinguishes concrete classes through the
same datum equality does. -/
theorem claim_C8_hash (env : Env) (h : String × List Value → Int)
    (a b : PRec) :
    phash env h a = h (a.cls, definingValues env a) ∧
    (peq env a b = true ↔ hashInput env a = hashInput env b) ∧
    (peq env a b = true → phash env h a = phash env h b) := by
  refine ⟨rfl, ?_, ?_⟩
  · rw [peq_iff]
    unfold hashInput
    rw [Prod.mk.injEq]
  · intro heq
    obtain ⟨h1, h2⟩ := (peq_iff env a b).mp heq
    unfold phash hashInput
    rw [h1, h2]

/-- Witness for `claim_C8_hash`: two records of one class with equal
defining values and different data fields hash equal. -/
theorem claim_C8_hash_witness :
    peq [("P", ⟨["x", "d"], 1, true, false⟩)]
        ⟨"P", [Value.vint 1, Value.vint 7]⟩
        ⟨"P", [Value.vint 1, Value.vint 8]⟩ = true ∧
    phash [("P", ⟨["x", "d"], 1, true, false⟩)]
        (fun p => (p.2.length : Int)) ⟨"P", [Value.vint 1, Value.vint 7]⟩ =
      phash [("P", ⟨["x", "d"], 1, true, false⟩)]
        (fun p => (p.2.length : Int)) ⟨"P", [Value.vint 1, Value.vint 8]⟩ := by
  refine ⟨by decide, ?_⟩
  exact (claim_C8_hash [("P", ⟨["x", "d"], 1, true, false⟩)]
      (fun p => (p.2.length : Int))
      ⟨"P", [Value.vint 1, Value.vint 7]⟩
      ⟨"P", [Value.vint 1, Value.vint 8]⟩).2.2 (by decide)

/-!
### C9: declaration-time errors
-/

/-- C9 as frozen is refuted: a class declaration with no `__init__` in its
namespace, no inferable fields, and a base class that is not a record
type resolves without any error to the empty field table — the source's
`KeyError` branch of `_determine_fields` silently yields zero defining
fields, and `_gen_programmable_tuple_bases` silently skips non-record
bases instead of rejecting them. -/
theorem claim_C9_counterexample :
    determine_fields [BaseClass.other] none InitDecl.noInit = .ok ([], 0) := by
  rfl

/-- C9 amended: the only class-declaration error `_determine_fields`
raises is `ValueError('Initializer needs to be a function.')`, for a
namespace whose `__init__` entry is not a function; a namespace with no
`__init__` resolves without error to zero defining fields plus the sorted
inherited/declared data fields, and a base class that is not a record
type is silently ignored by field determination. -/
theorem claim_C9_declaration_errors (bases : List BaseClass)
    (dataDecl : Option (List FieldName)) (init : InitDecl) :
    determine_fields bases dataDecl InitDecl.notFunction
        = .error .notAFunction ∧
    determine_fields bases dataDecl InitDecl.noInit
        = .ok (sorted_set (union_fields bases dataDecl), 0) ∧
    determine_fields (BaseClass.other :: bases) dataDecl init
        = determine_fields bases dataDecl init := by
  refine ⟨rfl, rfl, ?_⟩
  unfold determine_fields union_fields pt_bases
  rw [List.filterMap_cons]

/-!
### C10: the permanently open `__content__` write
-/

/-- C10: on every frozen record, assigning any attribute other than
`__content__` raises; on every record of a non-tuple-based class
(`ProgrammableExpr` family), assigning `__content__` succeeds and replaces
the entire field storage with the assigned tuple.  The embedded
`__setattr__` is stateless, so the bypass holds at any time after
freezing, not only during the single bootstrap write that freezing
performs. -/
theorem claim_C10_bootstrap_write (env : Env) (r : PRec) (v : List Value)
    (hnt : isTupleOf env r.cls = false) :
    psetattr env r "__content__" v = .ok ⟨r.cls, v⟩ ∧
    ∀ attr, attr ≠ "__content__" →
      ∀ w, psetattr env r attr w = .error .immutableWrite := by
  constructor
  · unfold psetattr
    rw [if_pos rfl, if_neg (by rw [hnt]; exact Bool.false_ne_true)]
  · intro attr hne w
    unfold psetattr
    rw [if_neg hne]

/-- Witness for `claim_C10_bootstrap_write` at a concrete
`ProgrammableExpr`-style record: the storage of both fields is replaced
long after freezing. -/
theorem claim_C10_bootstrap_write_witness :
    isTupleOf [("E", ⟨["x", "d"], 1, false, false⟩)] "E" = false ∧
    psetattr [("E", ⟨["x", "d"], 1, false, false⟩)]
        ⟨"E", [Value.vint 1, Value.vint 2]⟩ "__content__"
        [Value.vint 9, Value.vint 9]
      = .ok ⟨"E", [Value.vint 9, Value.vint 9]⟩ := by
  refine ⟨by decide, ?_⟩
  exact (claim_C10_bootstrap_write [("E", ⟨["x", "d"], 1, false, false⟩)]
      ⟨"E", [Value.vint 1, Value.vint 2]⟩ [Value.vint 9, Value.vint 9]
      (by decide)).1

/-!
### C6: replace
-/

/-- C6: on a well-formed record, `_replace` with overrides whose keys are
all field names succeeds with a record of the same concrete class in
which each overridden field holds exactly the supplied value and every
other field — defining or data — holds the identical value read back from
the original record (`(kwargs.lookup fn).or (pgetattr env r fn)`).  The
`preplace` path is built from `pgetattr`, `_make` and
`_make_programmable_tuple` only: no user initializer is ever consulted
(the definition takes no initializer argument at all), matching the
claim's frame condition that no initialization logic runs. -/
theorem claim_C6_replace (env : Env) (r : PRec)
    (kwargs : List (FieldName × Value))
    (hwf : RecordWF env r)
    (hkeys : ∀ kv ∈ kwargs, kv.1 ∈ fieldsOf env r.cls) :
    ∃ r', preplace env r kwargs = .ok r' ∧ r'.cls = r.cls ∧
      ∀ fn ∈ fieldsOf env r.cls,
        pgetattr env r' fn = (kwargs.lookup fn).or (pgetattr env r fn) := by
  have hmem : ∀ fn : FieldName, fn ∈ fieldsOf env r.cls →
      ((fieldsOf env r.cls).contains fn) = true := by
    intro fn hfn
    exact List.elem_eq_true_of_mem hfn
  refine ⟨⟨r.cls, (fieldsOf env r.cls).map (fun fn =>
      match kwargs.lookup fn with
      | some v => v
      | none => (pgetattr env r fn).getD (Value.vint 0))⟩, ?_, rfl, ?_⟩
  · have hleft : (kwargs.filter
        (fun kv => !(fieldsOf env r.cls).contains kv.1)).isEmpty = true := by
      rw [filter_isEmpty_iff]
      intro kv hkv
      rw [hmem kv.1 (hkeys kv hkv)]
      simp
    simp only [preplace]
    rw [hleft]
    simp only [if_true]
    simp only [pmake]
    rw [get_field_values_map (f := fun fn =>
        match kwargs.lookup fn with
        | some v => v
        | none => (pgetattr env r fn).getD (Value.vint 0))
      (fun fn hfn => lookup_map_pair hfn)]
    have hleft2 : (((fieldsOf env r.cls).map (fun fn =>
        (fn, match kwargs.lookup fn with
             | some v => v
             | none => (pgetattr env r fn).getD (Value.vint 0)))).filter
        (fun kv => !(fieldsOf env r.cls).contains kv.1)).isEmpty = true := by
      rw [filter_isEmpty_iff]
      intro kv hkv
      obtain ⟨fn, hfn, hkveq⟩ := List.mem_map.mp hkv
      rw [← hkveq]
      rw [hmem fn hfn]
      simp
    simp only [Bind.bind, Except.bind]
    rw [hleft2]
    rfl
  · intro fn hfn
    rw [pgetattr_map hfn]
    cases hkl : kwargs.lookup fn with
    | some v => simp [hkl]
    | none =>
        have hs := pgetattr_wf_isSome hwf hfn
        cases hg : pgetattr env r fn with
        | none => rw [hg] at hs; simp at hs
        | some u => simp [hkl, hg]

/-- Witness for `claim_C6_replace`: overriding the defining field leaves
the (now logically stale) data field byte-identical. -/
theorem claim_C6_replace_witness :
    RecordWF [("P", ⟨["x", "d"], 1, true, false⟩)]
      ⟨"P", [Value.vint 1, Value.vint 10]⟩ ∧
    ∃ r', preplace [("P", ⟨["x", "d"], 1, true, false⟩)]
        ⟨"P", [Value.vint 1, Value.vint 10]⟩ [("x", Value.vint 5)] = .ok r' ∧
      r'.cls = "P" ∧
      ∀ fn ∈ fieldsOf [("P", ⟨["x", "d"], 1, true, false⟩)] "P",
        pgetattr [("P", ⟨["x", "d"], 1, true, false⟩)] r' fn =
          (([("x", Value.vint 5)] :
              List (FieldName × Value)).lookup fn).or
            (pgetattr [("P", ⟨["x", "d"], 1, true, false⟩)]
              ⟨"P", [Value.vint 1, Value.vint 10]⟩ fn) := by
  refine ⟨by decide, ?_⟩
  exact claim_C6_replace [("P", ⟨["x", "d"], 1, true, false⟩)]
    ⟨"P", [Value.vint 1, Value.vint 10]⟩ [("x", Value.vint 5)]
    (by decide) (by decide)

/-!
### C5: update
-/

/-- C5: `_update` with override keys that are all defining-field names is
exactly normal construction (`new_meth`, i.e. `type(self)(*values)`) at
the current defining values with the overridden ones substituted
positionally in field-table order — so data fields recompute as a fresh
construction would; and when any override key is not a defining-field
name (and the interleaved construction itself succeeds), `_update` fails
with the unexpected-field error. -/
theorem claim_C5_update (env : Env) (userInit : UserInit) (r : PRec)
    (kwargs : List (FieldName × Value)) :
    ((∀ kv ∈ kwargs, kv.1 ∈ definingNamesOf env r.cls) →
      pupdate env userInit r kwargs =
        new_meth env r.cls userInit
          (((definingNamesOf env r.cls).zip r.content).map
            (fun p => (kwargs.lookup p.1).getD p.2)) []) ∧
    (∀ res,
      new_meth env r.cls userInit
          (((definingNamesOf env r.cls).zip r.content).map
            (fun p => (kwargs.lookup p.1).getD p.2)) [] = .ok res →
      (∃ kv ∈ kwargs, kv.1 ∉ definingNamesOf env r.cls) →
      ∃ bad, bad ≠ [] ∧
        pupdate env userInit r kwargs = .error (.unexpectedFields bad)) := by
  constructor
  · intro hkeys
    have hleft : (kwargs.filter
        (fun kv => !(definingNamesOf env r.cls).contains kv.1)).isEmpty = true := by
      rw [filter_isEmpty_iff]
      intro kv hkv
      have hc : (definingNamesOf env r.cls).contains kv.1 = true :=
        List.elem_eq_true_of_mem (hkeys kv hkv)
      rw [hc]
      simp
    simp only [pupdate]
    rw [hleft]
    simp only [if_true]
    cases new_meth env r.cls userInit
        (((definingNamesOf env r.cls).zip r.content).map
          (fun p => (kwargs.lookup p.1).getD p.2)) [] with
    | error e => rfl
    | ok res => rfl
  · intro res hok ⟨kv, hkv, hbad⟩
    have hsurv : kv ∈ kwargs.filter
        (fun x => !(definingNamesOf env r.cls).contains x.1) := by
      rw [List.mem_filter]
      refine ⟨hkv, ?_⟩
      rw [Bool.not_eq_true']
      rw [← Bool.not_eq_true]
      intro hc
      exact hbad (List.mem_of_elem_eq_true hc)
    have hne : kwargs.filter
        (fun x => !(definingNamesOf env r.cls).contains x.1) ≠ [] := by
      intro hc
      rw [hc] at hsurv
      cases hsurv
    refine ⟨(kwargs.filter
        (fun x => !(definingNamesOf env r.cls).contains x.1)).map
          (fun x => x.1), ?_, ?_⟩
    · intro hc
      exact hne (List.map_eq_nil_iff.mp hc)
    · simp only [pupdate]
      rw [hok]
      have hempty : (kwargs.filter
          (fun x => !(definingNamesOf env r.cls).contains x.1)).isEmpty = false := by
        rw [List.isEmpty_eq_false_iff_exists_mem]
        exact ⟨kv, hsurv⟩
      simp only [Bind.bind, Except.bind]
      rw [hempty]
      rfl

/-- Witness for `claim_C5_update`: a defining-field override yields the
rebuilt record with its data field recomputed, and an unknown key fails
with the unexpected-field error even though construction succeeds. -/
theorem claim_C5_update_witness :
    pupdate [("P", ⟨["x", "d"], 1, true, true⟩)]
        (fun _ _ s => proxy_set s "d" (Value.vint 99))
        ⟨"P", [Value.vint 1, Value.vint 10]⟩ [("x", Value.vint 5)]
      = new_meth [("P", ⟨["x", "d"], 1, true, true⟩)] "P"
          (fun _ _ s => proxy_set s "d" (Value.vint 99)) [Value.vint 5] [] ∧
    ∃ bad, bad ≠ [] ∧
      pupdate [("P", ⟨["x", "d"], 1, true, true⟩)]
          (fun _ _ s => proxy_set s "d" (Value.vint 99))
          ⟨"P", [Value.vint 1, Value.vint 10]⟩ [("bogus", Value.vint 5)]
        = .error (.unexpectedFields bad) := by
  constructor
  · exact (claim_C5_update [("P", ⟨["x", "d"], 1, true, true⟩)]
      (fun _ _ s => proxy_set s "d" (Value.vint 99))
      ⟨"P", [Value.vint 1, Value.vint 10]⟩ [("x", Value.vint 5)]).1
      (by decide)
  · exact (claim_C5_update [("P", ⟨["x", "d"], 1, true, true⟩)]
      (fun _ _ s => proxy_set s "d" (Value.vint 99))
      ⟨"P", [Value.vint 1, Value.vint 10]⟩ [("bogus", Value.vint 5)]).2
      ⟨"P", [Value.vint 1, Value.vint 99]⟩ rfl
      ⟨("bogus", Value.vint 5), by decide, by decide⟩

/-!
### C2: normal construction stores the supplied arguments

Helper lemmas about association-list lookup under the write discipline of
the proxy scratch storage.
-/

/-- Lookup distributes over append, preferring the left list. -/
theorem lookup_append (a b : List (FieldName × Value)) (fn : FieldName) :
    (a ++ b).lookup fn = (a.lookup fn).or (b.lookup fn) := by
  induction a with
  | nil => simp [List.lookup]
  | cons kv rest ih =>
      rw [List.cons_append, List.lookup, List.lookup]
      cases h : (fn == kv.1) with
      | true => rfl
      | false => exact ih

/-- Lookup misses when the key is absent. -/
theorem lookup_eq_none_of_not_mem {l : List (FieldName × Value)}
    {fn : FieldName} (h : fn ∉ l.map Prod.fst) : l.lookup fn = none := by
  induction l with
  | nil => rfl
  | cons kv rest ih =>
      rw [List.map_cons] at h
      have h1 : fn ≠ kv.1 := fun hc => h (hc ▸ List.mem_cons_self _ _)
      have h2 : fn ∉ rest.map Prod.fst := fun hc => h (List.mem_cons_of_mem _ hc)
      have hk : (fn == kv.1) = false := beq_eq_false_iff_ne.mpr h1
      simp [List.lookup, hk, ih h2]

/-- Lookup hits when the key is present. -/
theorem lookup_isSome_of_mem {l : List (FieldName × Value)} {fn : FieldName}
    (h : fn ∈ l.map Prod.fst) : ∃ v, l.lookup fn = some v := by
  induction l with
  | nil => cases h
  | cons kv rest ih =>
      cases hk : (fn == kv.1) with
      | true => exact ⟨kv.2, by simp [List.lookup, hk]⟩
      | false =>
          have h2 : fn ∈ rest.map Prod.fst := by
            rw [List.map_cons, List.mem_cons] at h
            cases h with
            | inl hc => exact absurd hc (beq_eq_false_iff_ne.mp hk)
            | inr ht => exact ht
          obtain ⟨v, hv⟩ := ih h2
          exact ⟨v, by simp [List.lookup, hk, hv]⟩

/-- Under duplicate-free keys, lookup is insensitive to reversal. -/
theorem lookup_reverse_nodup {l : List (FieldName × Value)}
    (h : (l.map Prod.fst).Nodup) (fn : FieldName) :
    l.reverse.lookup fn = l.lookup fn := by
  induction l with
  | nil => rfl
  | cons kv rest ih =>
      rw [List.map_cons, List.nodup_cons] at h
      rw [List.reverse_cons, lookup_append]
      cases hk : (fn == kv.1) with
      | true =>
          have hfn : fn = kv.1 := eq_of_beq hk
          have hnone : rest.reverse.lookup fn = none := by
            apply lookup_eq_none_of_not_mem
            rw [List.map_reverse]
            intro hc
            exact h.1 (by rw [← hfn]; exact List.mem_reverse.mp hc)
          rw [hnone, Option.none_or]
          simp [List.lookup, hk]
      | false =>
          rw [ih h.2]
          simp [List.lookup, hk, Option.or_none]

/-- The keys of a zip are the key list truncated to the value count. -/
theorem map_fst_zip_take (names : List FieldName) (args : List Value) :
    (names.zip args).map Prod.fst = names.take args.length := by
  induction names generalizing args with
  | nil => simp
  | cons x rest ih =>
      cases args with
      | nil => simp
      | cons a as => simp [ih as]

/-- Looking a key of a duplicate-free list up in its zip with a value list
returns the value at the key's position. -/
theorem lookup_zip_nodup {names : List FieldName} {args : List Value}
    (hnd : names.Nodup) {i : Nat} (hi : i < args.length)
    (hin : i < names.length) :
    (names.zip args).lookup names[i] = args[i]? := by
  induction names generalizing args i with
  | nil => cases hin
  | cons x rest ih =>
      cases args with
      | nil => cases hi
      | cons a as =>
          rw [List.nodup_cons] at hnd
          cases i with
          | zero => simp [List.lookup]
          | succ j =>
              have hj : j < as.length := by simpa using hi
              have hjn : j < rest.length := by simpa using hin
              have hgs : (x :: rest)[j + 1] = rest[j] :=
                List.getElem_cons_succ x rest j (by simpa using hin)
              rw [hgs]
              have hne : (rest[j] == x) = false := by
                rw [beq_eq_false_iff_ne]
                intro hc
                exact hnd.1 (hc ▸ List.getElem_mem hjn)
              rw [List.zip_cons_cons]
              calc ((x, a) :: rest.zip as).lookup rest[j]
                  = (rest.zip as).lookup rest[j] := by simp [List.lookup, hne]
                _ = as[j]? := ih hnd.2 hj hjn
                _ = (a :: as)[j + 1]? := by simp

/-- The scratch state produced by a sequence of proxy writes: the latest
write for the name, falling back to the initial state. -/
theorem proxy_get_foldl (ps : List (FieldName × Value)) (s : ProxyState)
    (fn : FieldName) :
    proxy_get (ps.foldl (fun st fv => proxy_set st fv.1 fv.2) s) fn
      = (ps.reverse.lookup fn).or (proxy_get s fn) := by
  induction ps generalizing s with
  | nil => simp [proxy_get]
  | cons p rest ih =>
      rw [List.foldl_cons, ih, List.reverse_cons, lookup_append]
      have hset : proxy_get (proxy_set s p.1 p.2) fn
          = ([p].lookup fn).or (proxy_get s fn) := by
        unfold proxy_get proxy_set
        cases hk : (fn == p.1) with
        | true => simp [List.lookup, hk]
        | false => simp [List.lookup, hk]
      rw [hset, Option.or_assoc]

/-- `auto_assign` on the empty scratch state: keyword writes shadow the
positional writes, both looked up latest-first. -/
theorem proxy_get_auto_assign (names : List FieldName) (args : List Value)
    (kwargs : List (FieldName × Value)) (fn : FieldName) :
    proxy_get (auto_assign names args kwargs []) fn
      = (kwargs.reverse.lookup fn).or ((names.zip args).reverse.lookup fn) := by
  unfold auto_assign
  rw [proxy_get_foldl, List.reverse_append, lookup_append]
  have : proxy_get [] fn = none := rfl
  rw [this, Option.or_none]

/-- The argument list the constructor call supplies, in declared parameter
order: the positional arguments first, then for each remaining declared
name the value of its keyword argument. -/
def supplied_values (names : List FieldName) (args : List Value)
    (kwargs : List (FieldName × Value)) : List Value :=
  args ++ (names.drop args.length).map
    (fun fn => (kwargs.lookup fn).getD (Value.vint 0))

/-- Under a valid constructor call (duplicate-free parameter names, at
most as many positional arguments as parameters, keyword arguments
exactly covering the remaining parameters), the auto-assign writes leave
the i-th declared parameter name bound to the i-th supplied argument. -/
theorem auto_assign_supplied {names : List FieldName} {args : List Value}
    {kwargs : List (FieldName × Value)}
    (hnd : names.Nodup)
    (hlen : args.length ≤ names.length)
    (hkw : (kwargs.map Prod.fst).Perm (names.drop args.length))
    (hkwnd : (kwargs.map Prod.fst).Nodup)
    {i : Nat} (hi : i < names.length) :
    proxy_get (auto_assign names args kwargs []) names[i]
      = (supplied_values names args kwargs)[i]? := by
  rw [proxy_get_auto_assign]
  by_cases hpos : i < args.length
  · have htk : i < (names.take args.length).length := by
      rw [List.length_take]
      omega
    have htake : names[i] ∈ names.take args.length := by
      have h2 : (names.take args.length)[i] = names[i] :=
        @List.getElem_take _ names args.length i htk
      exact h2 ▸ List.getElem_mem htk
    have hnotkw : names[i] ∉ kwargs.map Prod.fst := by
      intro hc
      exact (List.disjoint_take_drop hnd (Nat.le_refl args.length)) htake
        (hkw.mem_iff.mp hc)
    have hk1 : kwargs.reverse.lookup names[i] = none := by
      apply lookup_eq_none_of_not_mem
      rw [List.map_reverse]
      intro hc
      exact hnotkw (List.mem_reverse.mp hc)
    rw [hk1, Option.none_or]
    have hznd : ((names.zip args).map Prod.fst).Nodup := by
      rw [map_fst_zip_take]
      exact hnd.sublist (List.take_sublist _ _)
    rw [lookup_reverse_nodup hznd, lookup_zip_nodup hnd hpos hi]
    unfold supplied_values
    rw [List.getElem?_append, if_pos hpos]
  · have hni? : (names.drop args.length)[i - args.length]? = some names[i] := by
      rw [List.getElem?_drop]
      have harith : args.length + (i - args.length) = i := by omega
      rw [harith]
      exact List.getElem?_eq_getElem hi
    have hmemkw : names[i] ∈ kwargs.map Prod.fst :=
      hkw.mem_iff.mpr (List.getElem?_mem hni?)
    obtain ⟨v, hv⟩ := lookup_isSome_of_mem hmemkw
    have hrev : kwargs.reverse.lookup names[i] = some v := by
      rw [lookup_reverse_nodup hkwnd]
      exact hv
    rw [hrev, Option.or_some]
    unfold supplied_values
    rw [List.getElem?_append, if_neg hpos, List.getElem?_map, hni?]
    simp [hv]

/-- C2: with auto-assign enabled and a valid constructor call, (a) before
the user initializer body runs, the proxy state already binds every
declared parameter name to the corresponding positional or keyword
argument, and (b) provided the user initializer body leaves the defining
names alone (writing only data fields, as a well-behaved initializer
does), the frozen record returned by normal construction carries exactly
the supplied arguments as its defining-field values, in declared
parameter order. -/
theorem claim_C2_construction (env : Env) (cls : String)
    (userInit : UserInit) (args : List Value)
    (kwargs : List (FieldName × Value))
    (hauto : autoDefiningOf env cls = true)
    (hnd : (definingNamesOf env cls).Nodup)
    (hcnt : definingCountOf env cls ≤ (fieldsOf env cls).length)
    (hlen : args.length ≤ (definingNamesOf env cls).length)
    (hkw : (kwargs.map Prod.fst).Perm
      ((definingNamesOf env cls).drop args.length))
    (hkwnd : (kwargs.map Prod.fst).Nodup)
    (hframe : ∀ s fn, fn ∈ definingNamesOf env cls →
      proxy_get (userInit args kwargs s) fn = proxy_get s fn) :
    (∀ i (hi : i < (definingNamesOf env cls).length),
      proxy_get (auto_assign (definingNamesOf env cls) args kwargs [])
          (definingNamesOf env cls)[i]
        = (supplied_values (definingNamesOf env cls) args kwargs)[i]?) ∧
    ∀ r, new_meth env cls userInit args kwargs = .ok r →
      r.content.take (definingCountOf env cls)
        = supplied_values (definingNamesOf env cls) args kwargs := by
  have hnl : (definingNamesOf env cls).length = definingCountOf env cls := by
    unfold definingNamesOf
    rw [List.length_take]
    exact Nat.min_eq_left hcnt
  constructor
  · intro i hi
    exact auto_assign_supplied hnd hlen hkw hkwnd hi
  · intro r hok
    simp only [new_meth, proxy_init, hauto, if_true] at hok
    cases hgv : get_field_values (fieldsOf env cls) (fun fn =>
        proxy_get (userInit args kwargs
          (auto_assign (definingNamesOf env cls) args kwargs [])) fn) with
    | error e =>
        rw [hgv] at hok
        simp [Bind.bind, Except.bind] at hok
    | ok values =>
        rw [hgv] at hok
        simp only [Bind.bind, Except.bind, make_programmable_tuple,
          Except.ok.injEq] at hok
        obtain ⟨hvlen, hvals⟩ := get_field_values_ok hgv
        subst hok
        have hsl : (supplied_values (definingNamesOf env cls) args
            kwargs).length = (definingNamesOf env cls).length := by
          unfold supplied_values
          rw [List.length_append, List.length_map, List.length_drop]
          omega
        apply List.ext_getElem?
        intro j
        rw [List.getElem?_take]
        by_cases hj : j < definingCountOf env cls
        · rw [if_pos hj]
          have hjf : j < (fieldsOf env cls).length := lt_of_lt_of_le hj hcnt
          have hjn : j < (definingNamesOf env cls).length := by
            rw [hnl]
            exact hj
          have hq := hvals j hjf
          have hfj : (fieldsOf env cls)[j] = (definingNamesOf env cls)[j] :=
            (@List.getElem_take _ (fieldsOf env cls)
              (definingCountOf env cls) j hjn).symm
          rw [hfj] at hq
          rw [hframe _ _ (List.getElem_mem hjn)] at hq
          rw [auto_assign_supplied hnd hlen hkw hkwnd hjn] at hq
          exact hq.symm
        · rw [if_neg hj]
          symm
          apply List.getElem?_eq_none
          rw [hsl, hnl]
          omega

/-- The concrete class used by the construction witnesses: two defining
fields `x`, `y` and one data field `s`, with auto-assign enabled. -/
def envC2 : Env := [("P", ⟨["x", "y", "s"], 2, true, true⟩)]

/-- A well-behaved concrete initializer body: computes only the data
field `s`, leaving the auto-assigned defining fields alone. -/
def userInitC2 : UserInit := fun _ _ s => proxy_set s "s" (Value.vint 7)

/-- Witness for `claim_C2_construction`: one positional and one keyword
argument land as the two defining values of the frozen record. -/
theorem claim_C2_construction_witness :
    new_meth envC2 "P" userInitC2 [Value.vint 1] [("y", Value.vint 2)]
      = .ok ⟨"P", [Value.vint 1, Value.vint 2, Value.vint 7]⟩ ∧
    (⟨"P", [Value.vint 1, Value.vint 2, Value.vint 7]⟩ : PRec).content.take
        (definingCountOf envC2 "P")
      = supplied_values (definingNamesOf envC2 "P") [Value.vint 1]
          [("y", Value.vint 2)] := by
  refine ⟨rfl, ?_⟩
  have hframe : ∀ (s : ProxyState) (fn : FieldName),
      fn ∈ definingNamesOf envC2 "P" →
      proxy_get (userInitC2 [Value.vint 1] [("y", Value.vint 2)] s) fn
        = proxy_get s fn := by
    intro s fn hfn
    have hfn' : fn = "x" ∨ fn = "y" := by
      simpa [definingNamesOf, fieldsOf, definingCountOf, envC2] using hfn
    have hne : (fn == "s") = false := by
      rcases hfn' with h | h <;> rw [h] <;> decide
    simp [userInitC2, proxy_get, proxy_set, List.lookup, hne]
  exact (claim_C2_construction envC2 "P" userInitC2 [Value.vint 1]
    [("y", Value.vint 2)] (by decide) (by decide) (by decide) (by decide)
    (by decide) (by decide) hframe).2
    ⟨"P", [Value.vint 1, Value.vint 2, Value.vint 7]⟩ rfl

/-!
### C1: the resolved field table
-/

/-- `sorted_set` keeps exactly the elements of its input. -/
theorem sorted_set_mem {l : List FieldName} {x : FieldName} :
    x ∈ sorted_set l ↔ x ∈ l := by
  unfold sorted_set
  rw [(List.perm_insertionSort _ _).mem_iff, List.mem_dedup]

/-- `sorted_set` is duplicate-free. -/
theorem sorted_set_nodup (l : List FieldName) : (sorted_set l).Nodup := by
  unfold sorted_set
  exact (List.perm_insertionSort _ _).nodup_iff.mpr (List.nodup_dedup l)

/-- `sorted_set` is strictly sorted lexicographically. -/
theorem sorted_set_sorted (l : List FieldName) :
    (sorted_set l).Sorted (· < ·) := by
  have hle : (sorted_set l).Sorted (· ≤ ·) :=
    List.sorted_insertionSort (· ≤ ·) l.dedup
  have hnd : (sorted_set l).Nodup := sorted_set_nodup l
  exact (List.Pairwise.and hle hnd).imp (fun h => lt_of_le_of_ne h.1 h.2)

/-- Boolean non-containment agrees with non-membership. -/
theorem not_contains_iff {l : List FieldName} {x : FieldName} :
    (!l.contains x) = true ↔ x ∉ l := by
  rw [Bool.not_eq_true']
  constructor
  · intro h hc
    have h2 : l.contains x = true := List.elem_eq_true_of_mem hc
    rw [h] at h2
    cases h2
  · intro h
    cases hc : l.contains x with
    | false => rfl
    | true => exact absurd (List.mem_of_elem_eq_true hc) h

/-- C1: for a class declaration with a function initializer (whose
parameter names after `self` are duplicate-free, as Python guarantees),
field determination succeeds, and the resolved table is: the defining
fields first in declared parameter order, then the data fields — the
union of all programmable-tuple bases' fields with the declared data
fields, minus the defining names — in strictly sorted lexicographic
order; every name appears exactly once, and any inherited name that is
re-declared as a defining parameter sits in the defining prefix. -/
theorem claim_C1_field_table (bases : List BaseClass)
    (dataDecl : Option (List FieldName)) (params : List FieldName)
    (hnd : (params.drop 1).Nodup) :
    ∃ tbl n, determine_fields bases dataDecl (.func params) = .ok (tbl, n) ∧
      n = (params.drop 1).length ∧
      tbl.take n = params.drop 1 ∧
      (tbl.drop n).Sorted (· < ·) ∧
      (∀ x, x ∈ tbl.drop n ↔
        x ∈ union_fields bases dataDecl ∧ x ∉ params.drop 1) ∧
      tbl.Nodup ∧
      (∀ x, x ∈ union_fields bases dataDecl → x ∈ params.drop 1 →
        x ∈ tbl.take n) := by
  refine ⟨params.drop 1 ++ sorted_set ((union_fields bases dataDecl).filter
      (fun x => !(params.drop 1).contains x)), (params.drop 1).length,
      rfl, rfl, ?_, ?_, ?_, ?_, ?_⟩
  · exact List.take_left _ _
  · rw [List.drop_left]
    exact sorted_set_sorted _
  · intro x
    rw [List.drop_left, sorted_set_mem, List.mem_filter, not_contains_iff]
  · rw [List.nodup_append]
    refine ⟨hnd, sorted_set_nodup _, ?_⟩
    intro x hx hc
    rw [sorted_set_mem, List.mem_filter, not_contains_iff] at hc
    exact hc.2 hx
  · intro x hu hd
    rw [List.take_left]
    exact hd

/-- Witness for `claim_C1_field_table`: a base contributing fields
`a`, `b`, a declared data field `c`, and an initializer re-declaring the
inherited `b` as defining along with a new `x`; the table comes out as
`[b, x, a, c]` with the re-declared `b` defining. -/
theorem claim_C1_field_table_witness :
    ∃ tbl n, determine_fields [BaseClass.pt ["b", "a"]] (some ["c"])
        (.func ["self", "b", "x"]) = .ok (tbl, n) ∧
      n = (["self", "b", "x"].drop 1).length ∧
      tbl.take n = ["self", "b", "x"].drop 1 ∧
      (tbl.drop n).Sorted (· < ·) ∧
      (∀ x, x ∈ tbl.drop n ↔
        x ∈ union_fields [BaseClass.pt ["b", "a"]] (some ["c"]) ∧
          x ∉ ["self", "b", "x"].drop 1) ∧
      tbl.Nodup ∧
      (∀ x, x ∈ union_fields [BaseClass.pt ["b", "a"]] (some ["c"]) →
        x ∈ ["self", "b", "x"].drop 1 → x ∈ tbl.take n) :=
  claim_C1_field_table [BaseClass.pt ["b", "a"]] (some ["c"])
    ["self", "b", "x"] (by decide)

/-!
### C7: the dictionary round trip
-/

/-- A field value over which the untagged codec acts as the identity: not
a programmable tuple (those are encoded to dictionaries), and if a plain
dictionary, one without the reserved `__class__` key at its top level
(decoding returns such sub-dictionaries unchanged). -/
def plain_field_value : Value → Bool
  | .vrec _ _ => false
  | .vdict sub => (sub.lookup "__class__").isNone
  | .vint _ => true
  | .vstr _ => true

/-- Encoding leaves a plain field value unchanged. -/
theorem encode_val_plain {env : Env} {full : Bool} {v : Value}
    (h : plain_field_value v = true) : encode_val env full v = v := by
  cases v with
  | vint n => rfl
  | vstr s => rfl
  | vdict d => rfl
  | vrec c l => simp [plain_field_value] at h

/-- Taking distributes over zipping. -/
theorem take_zip_take :
    ∀ (n : Nat) (l1 : List FieldName) (l2 : List Value),
    (l1.zip l2).take n = (l1.take n).zip (l2.take n)
  | 0, _, _ => by simp
  | _ + 1, [], _ => by simp
  | _ + 1, _ :: _, [] => by simp
  | n + 1, fn :: fns, v :: vs => by
      rw [List.zip_cons_cons, List.take_succ_cons, List.take_succ_cons,
        List.take_succ_cons, List.zip_cons_cons, take_zip_take n fns vs]

/-- On plain included values, `_asdict`'s pair iteration is the zip of
the included fields with their values. -/
theorem encode_pairs_eq_zip (env : Env) (full : Bool) :
    ∀ (cnt : Nat) (fns : List FieldName) (vals : List Value),
    (∀ v ∈ vals.take cnt, plain_field_value v = true) →
    cnt ≤ fns.length → cnt ≤ vals.length →
    encode_pairs env full cnt fns vals = (fns.zip vals).take cnt
  | 0, _, _, _, _, _ => by simp [encode_pairs]
  | _ + 1, [], _, _, h1, _ => by simp at h1
  | _ + 1, _ :: _, [], _, _, h2 => by simp at h2
  | n + 1, fn :: fns, v :: vs, h, h1, h2 => by
      have hp : plain_field_value v = true := h v (by simp)
      rw [encode_pairs, encode_val_plain hp, List.zip_cons_cons,
        List.take_succ_cons,
        encode_pairs_eq_zip env full n fns vs
          (fun w hw => h w (by rw [List.take_succ_cons]; exact
            List.mem_cons_of_mem _ hw))
          (by simpa using h1) (by simpa using h2)]

/-- A successful lookup result is a member of the association list. -/
theorem mem_of_lookup {l : List (FieldName × Value)} {fn : FieldName}
    {v : Value} (h : l.lookup fn = some v) : (fn, v) ∈ l := by
  induction l with
  | nil => cases h
  | cons kv rest ih =>
      rw [List.lookup] at h
      cases hk : (fn == kv.1) with
      | true =>
          rw [hk] at h
          injection h with h
          have hkv : (fn, v) = kv := by
            rw [eq_of_beq hk, ← h]
          exact hkv ▸ List.mem_cons_self _ _
      | false =>
          rw [hk] at h
          exact List.mem_cons_of_mem _ (ih h)

/-- Below top level, an untagged dictionary decodes to itself (the opaque
fallback of `_load_from_dict`). -/
theorem load_from_dict_fallback {env : Env}
    {ctags : Option (List (String × String))}
    {construct : String → List (FieldName × Value) → Except PTError PRec}
    {cls : String} {sub : List (FieldName × Value)} {full : Bool}
    (h : sub.lookup "__class__" = none) :
    load_from_dict env ctags construct cls sub full false
      = .ok (.vdict sub) := by
  simp only [load_from_dict, resolve_obj_class, h]
  rfl

/-- The `full=False` loop of `_load_from_dict` on a dictionary that binds
every requested name to a plain value: it returns exactly those
bindings. -/
theorem load_defining_fun {env : Env}
    {ctags : Option (List (String × String))}
    {construct : String → List (FieldName × Value) → Except PTError PRec}
    {cls : String} {f : FieldName → Value} :
    ∀ (names : List FieldName) (d : List (FieldName × Value)),
    (∀ fn ∈ names, d.lookup fn = some (f fn) ∧
      plain_field_value (f fn) = true) →
    load_defining env ctags construct cls names d
      = .ok (names.map (fun fn => (fn, f fn))) := by
  intro names
  induction names with
  | nil => intro d _; simp [load_defining]
  | cons fn rest ih =>
      intro d h
      obtain ⟨hv, hpl⟩ := h fn (List.mem_cons_self _ _)
      have hrest := ih d (fun x hx => h x (List.mem_cons_of_mem _ hx))
      simp only [load_defining]
      split
      · next heq =>
          rw [hv] at heq
          cases heq
      · next sub heq =>
          rw [hv] at heq
          injection heq with heq
          rw [heq] at hpl
          have hsub : sub.lookup "__class__" = none := by
            simpa [plain_field_value, Option.isNone_iff_eq_none] using hpl
          simp [load_from_dict_fallback hsub, hrest, Bind.bind, Except.bind, heq]
      · next n heq =>
          rw [hv] at heq
          injection heq with heq
          simp [hrest, Bind.bind, Except.bind, heq]
      · next s heq =>
          rw [hv] at heq
          injection heq with heq
          simp [hrest, Bind.bind, Except.bind, heq]
      · next c l heq =>
          rw [hv] at heq
          injection heq with heq
          rw [heq] at hpl
          simp [plain_field_value] at hpl

/-- Restoring the keys of a duplicate-free zip through lookup yields the
zip itself. -/
theorem map_lookup_zip : ∀ {names : List FieldName} {vals : List Value},
    names.Nodup → names.length = vals.length →
    names.map (fun fn =>
        (fn, ((names.zip vals).lookup fn).getD (Value.vint 0)))
      = names.zip vals := by
  intro names
  induction names with
  | nil => intro vals _ _; rfl
  | cons x rest ih =>
      intro vals hnd hlen
      cases vals with
      | nil => simp at hlen
      | cons v vs =>
          rw [List.nodup_cons] at hnd
          rw [List.zip_cons_cons, List.map_cons]
          congr 1
          · simp [List.lookup]
          · have hstep : ∀ fn ∈ rest,
                ((x :: rest).zip (v :: vs)).lookup fn
                  = (rest.zip vs).lookup fn := by
              intro fn hfn
              have hne : (fn == x) = false :=
                beq_eq_false_iff_ne.mpr (fun hc => hnd.1 (hc ▸ hfn))
              simp [List.zip_cons_cons, List.lookup, hne, List.zip]
            calc rest.map (fun fn =>
                  (fn, (((x :: rest).zip (v :: vs)).lookup fn).getD
                    (Value.vint 0)))
                = rest.map (fun fn =>
                  (fn, ((rest.zip vs).lookup fn).getD (Value.vint 0))) :=
                  List.map_congr_left (fun fn hfn => by rw [hstep fn hfn])
              _ = rest.zip vs := ih hnd.2 (by simpa using hlen)

/-- The two-class environment of the round-trip counterexample: `P` has
one defining field `x`, `Q` one defining field `y`. -/
def envC7 : Env :=
  [("P", ⟨["x"], 1, false, false⟩), ("Q", ⟨["y"], 1, false, false⟩)]

/-- An ideal per-class normal constructor: deterministic and faithful, it
stores the supplied defining values as the record's content. -/
def constructC7 : String → List (FieldName × Value) → Except PTError PRec :=
  fun cls dm => .ok ⟨cls, dm.map (fun kv => kv.2)⟩

/-- A `P`-record whose single defining value is itself a record of the
family (a `Q`-record). -/
def recC7 : PRec := ⟨"P", [Value.vrec "Q" [Value.vint 5]]⟩

/-- C7 as frozen is refuted on its nested-record case: encoding `recC7`
(`include_data=false`, no class tags — the default) turns the nested
`Q`-record into a plain dictionary, and decoding (also untagged) hits the
below-top-level fallback of `_load_from_dict`, which returns that
sub-mapping as a plain dictionary instead of a record.  The decoded
record therefore holds a dictionary where the original held a `Q`-record,
and the two compare unequal — even though the constructor used here is
deterministic and perfectly faithful to its defining fields. -/
theorem claim_C7_counterexample :
    asdict envC7 false recC7 = [("x", Value.vdict [("y", Value.vint 5)])] ∧
    load_from_dict envC7 none constructC7 "P" (asdict envC7 false recC7)
        false true
      = .ok (Value.vrec "P" [Value.vdict [("y", Value.vint 5)]]) ∧
    peq envC7 ⟨"P", [Value.vdict [("y", Value.vint 5)]]⟩ recC7 = false := by
  refine ⟨?_, ?_, by decide⟩
  · simp [asdict, encode_pairs, encode_val, envC7, fieldsOf,
      definingCountOf, List.lookup]
  · simp [load_from_dict, load_defining, resolve_obj_class, asdict,
      encode_pairs, encode_val, definingNamesOf, fieldsOf, definingCountOf,
      List.lookup, Bind.bind, Except.bind, constructC7, envC7, PRec.toValue,
      recC7]

/-- C7 amended: for a well-formed record none of whose defining values is
itself a record of the family (nested plain dictionaries allowed, as long
as they do not carry the reserved `__class__` key), and whose class's
normal constructor is deterministic and reproduces the supplied defining
values (`hcon`/`hdet`, the construction law of C2), decoding the untagged
`include_data=false` encoding yields a record equal to the original.
With a record-valued defining field the round trip fails without a class
tag table (see the counterexample): the untagged nested mapping decodes
to a plain dictionary by design. -/
theorem claim_C7_roundtrip (env : Env)
    (construct : String → List (FieldName × Value) → Except PTError PRec)
    (r r' : PRec)
    (hwf : RecordWF env r)
    (hnotag : "__class__" ∉ fieldsOf env r.cls)
    (hplain : ∀ v ∈ definingValues env r, plain_field_value v = true)
    (hcon : construct r.cls
        ((definingNamesOf env r.cls).zip (definingValues env r)) = .ok r')
    (hdet : r'.cls = r.cls ∧ definingValues env r' = definingValues env r) :
    load_from_dict env none construct r.cls (asdict env false r) false true
        = .ok r'.toValue ∧
    peq env r' r = true := by
  obtain ⟨hfnd, hcnt, hclen⟩ := hwf
  have hnnd : (definingNamesOf env r.cls).Nodup :=
    hfnd.sublist (List.take_sublist _ _)
  have hnlen : (definingNamesOf env r.cls).length
      = (definingValues env r).length := by
    unfold definingNamesOf definingValues
    rw [List.length_take, List.length_take, hclen]
  have hasd : asdict env false r
      = (definingNamesOf env r.cls).zip (definingValues env r) := by
    simp only [asdict, Bool.false_eq_true, if_false]
    rw [encode_pairs_eq_zip env false (definingCountOf env r.cls)
        (fieldsOf env r.cls) r.content hplain hcnt (by rw [hclen]; exact hcnt),
      take_zip_take]
    rfl
  have hlookupnt : ((definingNamesOf env r.cls).zip
      (definingValues env r)).lookup "__class__" = none := by
    apply lookup_eq_none_of_not_mem
    rw [map_fst_zip_take]
    intro hc
    exact hnotag (List.mem_of_mem_take (List.mem_of_mem_take hc))
  have hfun : ∀ fn ∈ definingNamesOf env r.cls,
      ((definingNamesOf env r.cls).zip (definingValues env r)).lookup fn
        = some ((((definingNamesOf env r.cls).zip
            (definingValues env r)).lookup fn).getD (Value.vint 0)) ∧
      plain_field_value ((((definingNamesOf env r.cls).zip
          (definingValues env r)).lookup fn).getD (Value.vint 0)) = true := by
    intro fn hfn
    have hkeys : fn ∈ ((definingNamesOf env r.cls).zip
        (definingValues env r)).map Prod.fst := by
      rw [map_fst_zip_take, ← hnlen, List.take_length]
      exact hfn
    obtain ⟨v, hv⟩ := lookup_isSome_of_mem hkeys
    rw [hv]
    exact ⟨rfl, hplain v (List.of_mem_zip (mem_of_lookup hv)).2⟩
  constructor
  · rw [hasd]
    simp only [load_from_dict, resolve_obj_class, hlookupnt, Bind.bind,
      Except.bind, if_true, Bool.false_eq_true, if_false]
    rw [load_defining_fun (definingNamesOf env r.cls)
      ((definingNamesOf env r.cls).zip (definingValues env r)) hfun]
    simp only [map_lookup_zip hnnd hnlen]
    simp [Bind.bind, Except.bind, hcon]
  · exact (peq_iff env r' r).mpr hdet

/-- Witness for `claim_C7_roundtrip`: a record whose defining value is a
scalar round-trips through the untagged codec up to record equality. -/
theorem claim_C7_roundtrip_witness :
    load_from_dict envC7 none constructC7 "P"
        (asdict envC7 false ⟨"P", [Value.vint 3]⟩) false true
      = .ok (PRec.toValue ⟨"P", [Value.vint 3]⟩) ∧
    peq envC7 ⟨"P", [Value.vint 3]⟩ ⟨"P", [Value.vint 3]⟩ = true :=
  claim_C7_roundtrip envC7 constructC7 ⟨"P", [Value.vint 3]⟩
    ⟨"P", [Value.vint 3]⟩ (by decide) (by decide) (by decide) rfl
    ⟨rfl, rfl⟩

end ProgTuple
